import Mathlib

/-
Verification development for lib_ilf (src/ilf.h and src/parser.h).

The C++ code is shallowly embedded:
  * `std::string` becomes `String`, `std::vector` becomes `List`.
  * A `moodycamel::ReaderWriterQueue<T>` is modelled as a `List T` (front of
    the list = front of the queue).  The queue grows on demand, so `enqueue`
    fails only when an internal memory allocation fails; that environmental
    outcome is passed in explicitly as a boolean oracle argument `enq_ok`.
    `size_approx` is modelled as the exact length (in the sequential model
    there is no concurrent staleness).
  * Machine integers (`unsigned int`, `size_t`) are modelled as `Nat`; the
    only arithmetic performed on them is `+ 1` and `&&& (N - 1)`, which never
    overflows for realistic lane counts, so no `% 2^32` is needed.
  * The conversion function `void (*)(input_t const&, output_t&)` writes its
    result in place; it is modelled as a pure function `I → O`.
-/

namespace LibIlf

/-! ### Data model from src/ilf.h -/

/-- `struct KeyValue` from src/ilf.h: a key, a value, and a flag saying
whether the value is quoted when serialized. -/
structure KeyValue where
  key : String
  value : String
  has_quotes : Bool
deriving DecidableEq

/-- `operator==(KeyValue const&, KeyValue const&)` from src/ilf.h:
compares `_key` and `_value` only; `_has_quotes` is not inspected. -/
def kvEq (kv1 kv2 : KeyValue) : Bool :=
  kv1.key == kv2.key && kv1.value == kv2.value

/-- `operator<<(std::string&, KeyValue const&)` from src/ilf.h: appends
`key="value"` or `key=value` depending on `_has_quotes`. -/
def kvAppend (str : String) (key_value : KeyValue) : String :=
  if key_value.has_quotes then
    str ++ key_value.key ++ "=\"" ++ key_value.value ++ "\""
  else
    str ++ key_value.key ++ "=" ++ key_value.value

/-- `struct ILF` from src/ilf.h. -/
structure ILF where
  event_t : String
  sender : String
  receiver : String
  time : String
  pairs : List KeyValue
deriving DecidableEq

/-- The `while` loop of `operator==(ILF const&, ILF const&)` in src/ilf.h:
walks both pair lists in step while elements compare equal.  The loop is
only entered after the sizes were checked equal, so the case of the second
list running out first cannot arise there; it is mapped to `true` (the loop
guard only tests the first iterator). -/
def pairsEq : List KeyValue → List KeyValue → Bool
  | [], _ => true
  | _ :: _, [] => true
  | kv1 :: t1, kv2 :: t2 => kvEq kv1 kv2 && pairsEq t1 t2

/-- `operator==(ILF const&, ILF const&)` from src/ilf.h: the four string
fields must be equal, then the pair lists must have equal sizes, then the
pairs are compared pairwise in order with the `KeyValue` equality. -/
def ilfEq (ilf1 ilf2 : ILF) : Bool :=
  if ilf1.event_t == ilf2.event_t && ilf1.sender == ilf2.sender &&
      ilf1.receiver == ilf2.receiver && ilf1.time == ilf2.time then
    if ilf1.pairs.length == ilf2.pairs.length then
      pairsEq ilf1.pairs ilf2.pairs
    else false
  else false

/-- The pair-printing loop of `operator<<(std::string&, ILF const&)` in
src/ilf.h: all pairs but the last are followed by a semicolon.  Only called
on a non-empty list. -/
def pairsJoin : List KeyValue → String → String
  | [], str => str
  | [kv], str => kvAppend str kv
  | kv :: t1, str => pairsJoin t1 (kvAppend str kv ++ ";")

/-- `operator<<(std::string&, ILF const&)` from src/ilf.h. -/
def ilfToString (ilf : ILF) : String :=
  let str := ilf.event_t ++ "[" ++ ilf.sender ++ "," ++
    ilf.receiver ++ "," ++ ilf.time ++ ",("
  if ilf.pairs.isEmpty then
    str ++ ")] "
  else
    pairsJoin ilf.pairs str ++ ")] "

/-! ### The Parser from src/parser.h -/

/-- The state of a `Parser<input_t, output_t>` from src/parser.h.  The two
queue banks are the `_input_queues` and `_output_queues` arrays (each of
length `_num_threads`); the padded submit/receive counters
`_cur_input_index` / `_cur_output_index` are plain naturals here (padding is
a memory-layout concern with no sequential meaning). -/
structure Parser (I O : Type) where
  conversion_function : I → O
  num_threads : Nat
  input_queues : List (List I)
  output_queues : List (List O)
  cur_input_index : Nat
  cur_output_index : Nat
  threads_active : Bool

variable {I O : Type}

/-- The message of the `std::invalid_argument` thrown by the constructor. -/
def invalidArgMsg : String :=
  "number of threads must be greater than 0 and a power of 2"

/-- The field state established by the constructor once validation passed:
`num_threads` queues in each bank, both indices zero, threads inactive.
(`init_size` is only a capacity hint for the growable queues and has no
observable effect in the list model.) -/
def Parser.init (f : I → O) (num_threads : Nat) : Parser I O :=
  { conversion_function := f
    num_threads := num_threads
    input_queues := List.replicate num_threads []
    output_queues := List.replicate num_threads []
    cur_input_index := 0
    cur_output_index := 0
    threads_active := false }

/-- `Parser::Parser(conversion_function, num_threads, init_size)` from
src/parser.h.  Throws `std::invalid_argument` (modelled as `.error`) if
`num_threads` is zero or not a power of two — the test the code performs is
`num_threads == 0 || (num_threads & (num_threads - 1)) != 0` — and only
after that check allocates the thread array and the two queue banks, so on
rejection nothing is allocated. -/
def Parser.make (f : I → O) (num_threads : Nat) (init_size : Nat) :
    Except String (Parser I O) :=
  if num_threads == 0 || (num_threads &&& (num_threads - 1)) != 0 then
    .error invalidArgMsg
  else
    .ok (Parser.init f num_threads)

/-- `Parser::Parser(conversion_function)` from src/parser.h: delegates to
the three-argument constructor with `std::thread::hardware_concurrency()`
(an environmental value, passed in here as a parameter) and `4096`. -/
def Parser.makeDefault (f : I → O) (hardware_concurrency : Nat) :
    Except String (Parser I O) :=
  Parser.make f hardware_concurrency 4096

/-- `Parser::push` from src/parser.h: enqueue onto
`_input_queues[_cur_input_index]`; on success advance the submit index by
`(idx + 1) & (_num_threads - 1)`.  `enq_ok` is the outcome of the queue's
internal memory allocation (the growable queue fails only on allocation
failure); on failure nothing is modified and `false` is returned. -/
def Parser.push (p : Parser I O) (input : I) (enq_ok : Bool) :
    Parser I O × Bool :=
  let i := p.cur_input_index
  if enq_ok then
    ({ p with
        input_queues := p.input_queues.set i (p.input_queues.getD i [] ++ [input])
        cur_input_index := (i + 1) &&& (p.num_threads - 1) }, true)
  else
    (p, false)

/-- `Parser::pop` from src/parser.h: `try_dequeue` from
`_output_queues[_cur_output_index]` into the out-parameter `output`;
on success advance the receive index by `(idx + 1) & (_num_threads - 1)`.
On failure (empty queue) the out-parameter is untouched. -/
def Parser.pop (p : Parser I O) (output : O) : Parser I O × O × Bool :=
  let i := p.cur_output_index
  match p.output_queues.getD i [] with
  | [] => (p, output, false)
  | o :: rest =>
      ({ p with
          output_queues := p.output_queues.set i rest
          cur_output_index := (i + 1) &&& (p.num_threads - 1) }, o, true)

/-- `Parser::input_size` from src/parser.h: the sum of `size_approx()`
over the input bank. -/
def Parser.input_size (p : Parser I O) : Nat :=
  (p.input_queues.map List.length).sum

/-- `Parser::output_size` from src/parser.h: the sum of `size_approx()`
over the output bank. -/
def Parser.output_size (p : Parser I O) : Nat :=
  (p.output_queues.map List.length).sum

/-- `Parser::thread_routine_wait` from src/parser.h, for one lane, in the
run where every internal output enqueue succeeds: repeatedly `try_dequeue`
from the lane's input queue; on the first empty observation return; else
convert and enqueue onto the lane's output queue. -/
def thread_routine_wait (f : I → O) : List I → List O → List O
  | [], outq => outq
  | v :: rest, outq => thread_routine_wait f rest (outq ++ [f v])

/-- The effect of `Parser::start_wait` followed by every worker running
`thread_routine_wait` to completion (drain), with no concurrent producer
and all internal enqueues succeeding: each lane's worker empties its input
queue and appends the converted items to its output queue. -/
def Parser.drain (p : Parser I O) : Parser I O :=
  { p with
      input_queues := p.input_queues.map (fun _ => ([] : List I))
      output_queues := List.zipWith
        (fun iq oq => thread_routine_wait p.conversion_function iq oq)
        p.input_queues p.output_queues }

/-- One iteration of the loop body of `Parser::thread_routine` from
src/parser.h for one lane.  Returns the new input queue, the new output
queue, the number of warning lines written to `std::cerr`, and whether the
loop keeps running.  `enq_ok` is the outcome of the output enqueue's
internal allocation; on enqueue failure a warning is printed and the
converted item is dropped (it is enqueued nowhere and not retried). -/
def thread_routine_body (f : I → O) (threads_active : Bool)
    (inq : List I) (outq : List O) (enq_ok : Bool) :
    List I × List O × Nat × Bool :=
  if threads_active then
    match inq with
    | [] => (inq, outq, 0, true)
    | v :: rest =>
        if enq_ok then (rest, outq ++ [f v], 0, true)
        else (rest, outq, 1, true)
  else (inq, outq, 0, false)

/-- A sequence of successful pushes (every internal allocation succeeds). -/
def Parser.pushAll (p : Parser I O) (vs : List I) : Parser I O :=
  vs.foldl (fun q v => (q.push v true).1) p

/-- `k` calls of `Parser.pop` by a single consumer, collecting the values
of the successful ones and stopping at the first failed pop.  `out` threads
the out-parameter through, as the C++ caller would reuse its variable. -/
def Parser.popN : Parser I O → O → Nat → List O
  | _, _, 0 => []
  | p, out, k + 1 =>
      let r := p.pop out
      if r.2.2 then r.2.1 :: Parser.popN r.1 r.2.1 k else []

/-! ### Round-robin distribution, mathematically

Specification-side vocabulary used to state what the round-robin lane
selection computes. -/

variable {α β : Type}

/-- The elements of `vs` at positions congruent to `j` modulo `N`: the
contents of lane `j` after dealing `vs` round-robin into `N` initially
empty lanes starting at lane `0`. -/
def sel (N : Nat) : Nat → List α → List α
  | _, [] => []
  | j, v :: vs => if j = 0 then v :: sel N (N - 1) vs else sel N (j - 1) vs

/-- The whole bank of `N` lanes holding `ws` dealt round-robin from lane 0. -/
def bankOf (N : Nat) (ws : List α) : List (List α) :=
  (List.range N).map (fun j => sel N j ws)

/-- Left rotation of a list by `i` positions: the view of a queue bank in
which the current (index-`i`) lane comes first. -/
def rotL (l : List α) (i : Nat) : List α := l.drop i ++ l.take i

/-- The parser state reached from `Parser.init` after successfully pushing
the elements of `l`: the input bank holds `l` dealt round-robin and the
submit index has advanced `l.length` times. -/
def midState (f : I → O) (N : Nat) (l : List I) : Parser I O :=
  { Parser.init f N with
      input_queues := bankOf N l
      cur_input_index := l.length % N }

/-! ### Ghost-instrumented small-step semantics

For the conservation invariant, pushes, pops and the two halves of a worker
iteration are modelled as interleavable atomic steps on a state that also
records ghost counters (successful pushes, successful pops, items dropped
by a failed worker enqueue) and, per worker, the item it has dequeued but
not yet enqueued. -/

/-- The number of items currently held inside workers (dequeued from an
input queue but not yet enqueued to an output queue). -/
def handCount (hand : List (Option I)) : Nat :=
  hand.countP (fun o => o.isSome)

/-- A parser state extended with the per-worker in-flight slot and the
ghost counters. -/
structure Tracked (I O : Type) where
  p : Parser I O
  hand : List (Option I)
  pushed : Nat
  popped : Nat
  lost : Nat

/-- One atomic event of the pipeline, modelled sequentially: a push or a
pop by the (single) producer/consumer with either allocation outcome, the
two halves of a worker iteration of `Parser::thread_routine` (dequeue;
convert-and-enqueue, the enqueue either succeeding or failing with the
item dropped), and the `start`/`stop` flips of `_threads_active`. -/
inductive Step : Tracked I O → Tracked I O → Prop where
  | push_ok (s : Tracked I O) (v : I) :
      Step s { s with p := (s.p.push v true).1, pushed := s.pushed + 1 }
  | push_fail (s : Tracked I O) (v : I) :
      Step s { s with p := (s.p.push v false).1 }
  | pop_ok (s : Tracked I O) (out o : O) (p2 : Parser I O) :
      s.p.pop out = (p2, o, true) →
      Step s { s with p := p2, popped := s.popped + 1 }
  | pop_fail (s : Tracked I O) (out o : O) (p2 : Parser I O) :
      s.p.pop out = (p2, o, false) →
      Step s { s with p := p2 }
  | worker_deq (s : Tracked I O) (i : Nat) (v : I) (rest : List I) :
      s.p.threads_active = true →
      i < s.p.num_threads →
      s.hand.getD i none = none →
      s.p.input_queues.getD i [] = v :: rest →
      Step s { s with
        p := { s.p with input_queues := s.p.input_queues.set i rest }
        hand := s.hand.set i (some v) }
  | worker_enq_ok (s : Tracked I O) (i : Nat) (v : I) :
      i < s.p.num_threads →
      s.hand.getD i none = some v →
      Step s { s with
        p := { s.p with output_queues :=
                 (s.p.output_queues.set i
                   (s.p.output_queues.getD i [] ++ [s.p.conversion_function v])) }
        hand := s.hand.set i none }
  | worker_enq_fail (s : Tracked I O) (i : Nat) (v : I) :
      i < s.p.num_threads →
      s.hand.getD i none = some v →
      Step s { s with hand := s.hand.set i none, lost := s.lost + 1 }
  | start_step (s : Tracked I O) :
      Step s { s with p := { s.p with threads_active := true } }
  | stop_step (s : Tracked I O) :
      Step s { s with p := { s.p with threads_active := false } }

/-- The instrumented state right after construction: no worker holds an
item and all counters are zero. -/
def Tracked.init (f : I → O) (N : Nat) : Tracked I O :=
  { p := Parser.init f N
    hand := List.replicate N none
    pushed := 0
    popped := 0
    lost := 0 }

/-- Reachability from the freshly constructed parser with `2 ^ m` lanes by
any interleaving of the atomic events. -/
def Reachable (f : I → O) (m : Nat) (s : Tracked I O) : Prop :=
  Relation.ReflTransGen Step (Tracked.init f (2 ^ m)) s

/-- The inductive invariant: the structural facts (bank sizes, index
bounds) together with the conservation equation. -/
def TrackedInv (m : Nat) (s : Tracked I O) : Prop :=
  s.p.num_threads = 2 ^ m ∧
  s.p.input_queues.length = 2 ^ m ∧
  s.p.output_queues.length = 2 ^ m ∧
  s.hand.length = 2 ^ m ∧
  s.p.cur_input_index < 2 ^ m ∧
  s.p.cur_output_index < 2 ^ m ∧
  s.p.input_size + s.p.output_size + handCount s.hand + s.lost + s.popped
    = s.pushed

/-! ### Thread lifecycle (for `Parser::stop`)

`Parser::stop` joins the `std::thread` objects in `_threads`.  The only
per-thread state that matters is joinability. -/

/-- The lifecycle state of a started parser: the `_threads_active` flag and
the joinability of each `std::thread` in `_threads`. -/
structure Lifecycle where
  threads_active : Bool
  joinable : List Bool

/-- `std::thread::join` per the C++ standard: joining a thread that is not
joinable (in particular one that was already joined) throws
`std::system_error`; on success the thread object becomes non-joinable. -/
def threadJoin (joinable : Bool) : Except String Bool :=
  if joinable then .ok false
  else .error "std::system_error: invalid argument: thread not joinable"

/-- The join loop of `Parser::stop`: joins `_threads[0..N)` in order,
propagating the first exception. -/
def joinAll : List Bool → Except String (List Bool)
  | [] => .ok []
  | b :: rest =>
      match threadJoin b with
      | .error e => .error e
      | .ok b2 =>
          match joinAll rest with
          | .error e => .error e
          | .ok rest2 => .ok (b2 :: rest2)

/-- The lifecycle state after `Parser::start` (or `start_wait` /
`start_sleep`) spawned `num_threads` fresh (joinable) threads. -/
def startThreads (num_threads : Nat) : Lifecycle :=
  { threads_active := true, joinable := List.replicate num_threads true }

/-- `Parser::stop` from src/parser.h: sets `_threads_active` to `false`,
then calls `join()` on every thread in the array. -/
def Lifecycle.stop (s : Lifecycle) : Except String Lifecycle :=
  match joinAll s.joinable with
  | .error e => .error e
  | .ok ts => .ok { threads_active := false, joinable := ts }

/-! ## Theorems -/

/-- Advancing a round-robin index: the successor modulo `N` either wraps to
zero or increments. -/
lemma succ_mod_cases (N L : Nat) (hN : 0 < N) :
    (L + 1) % N = if L % N + 1 = N then 0 else L % N + 1 := by
  have hl : L % N < N := Nat.mod_lt _ hN
  rw [← Nat.mod_add_mod]
  by_cases hc : L % N + 1 = N
  · rw [if_pos hc, hc, Nat.mod_self]
  · rw [Nat.mod_eq_of_lt (by omega), if_neg hc]

/-- A power of two passes the constructor's bit test. -/
lemma and_pred_pow2 (m : Nat) : 2 ^ m &&& (2 ^ m - 1) = 0 := by
  rw [Nat.and_pow_two_sub_one_eq_mod, Nat.mod_self]

/-- A nonzero number passing the constructor's bit test is a power of
two. -/
lemma pow2_of_and_pred {N : Nat} (h0 : N ≠ 0) (h : N &&& (N - 1) = 0) :
    ∃ m, N = 2 ^ m := by
  refine ⟨N.log2, ?_⟩
  by_contra hne
  have h1 : 2 ^ N.log2 ≤ N := Nat.log2_self_le h0
  have h2 : N < 2 ^ (N.log2 + 1) := Nat.lt_log2_self
  have h3 : 2 ^ N.log2 < N := lt_of_le_of_ne h1 fun e => hne e.symm
  have hpow : 2 ^ (N.log2 + 1) = 2 * 2 ^ N.log2 := by
    rw [Nat.pow_succ, Nat.mul_comm]
  have h4 : N < 2 * 2 ^ N.log2 := hpow ▸ h2
  have hdiv1 : N / 2 ^ N.log2 = 1 := by
    apply Nat.div_eq_of_lt_le <;> omega
  have hdiv2 : (N - 1) / 2 ^ N.log2 = 1 := by
    apply Nat.div_eq_of_lt_le <;> omega
  have hb1 : N.testBit N.log2 = true := by
    rw [Nat.testBit_to_div_mod, hdiv1]; simp
  have hb2 : (N - 1).testBit N.log2 = true := by
    rw [Nat.testBit_to_div_mod, hdiv2]; simp
  have hb := Nat.testBit_and N (N - 1) N.log2
  rw [h, Nat.zero_testBit, hb1, hb2] at hb
  simp at hb

/-- A number strictly between two consecutive powers of two is not a power
of two. -/
lemma not_pow2_between {n k : Nat} (h1 : 2 ^ k < n) (h2 : n < 2 ^ (k + 1)) :
    ¬∃ m, n = 2 ^ m := by
  rintro ⟨m, rfl⟩
  rcases Nat.lt_or_ge m (k + 1) with hm | hm
  · have : 2 ^ m ≤ 2 ^ k := Nat.pow_le_pow_right (by omega) (by omega)
    omega
  · have : 2 ^ (k + 1) ≤ 2 ^ m := Nat.pow_le_pow_right (by omega) hm
    omega

/-- The constructor rejects exactly the invalid lane counts. -/
lemma make_error_iff (f : I → O) (cap N : Nat) :
    Parser.make f N cap = .error invalidArgMsg ↔ (N = 0 ∨ ¬∃ m, N = 2 ^ m) := by
  unfold Parser.make
  by_cases h0 : N = 0
  · subst h0; simp
  · by_cases h1 : N &&& (N - 1) = 0
    · obtain ⟨m, hm⟩ := pow2_of_and_pred h0 h1
      simp only [h0, h1, bne_self_eq_false, Bool.or_false]
      simp [h0]
      exact ⟨m, hm⟩
    · simp [h0, h1]
      intro m hm
      exact h1 (hm ▸ and_pred_pow2 m)

/-- A power-of-two lane count is accepted and yields the initial state. -/
lemma make_pow2_ok (f : I → O) (cap m : Nat) :
    Parser.make f (2 ^ m) cap = .ok (Parser.init f (2 ^ m)) := by
  unfold Parser.make
  have h0 : 2 ^ m ≠ 0 := by positivity
  simp [h0, and_pred_pow2 m]

/-- Computation rule for a successful `push`. -/
lemma push_true_eq (p : Parser I O) (v : I) :
    p.push v true =
      ({ p with
          input_queues :=
            (p.input_queues.set p.cur_input_index
              (p.input_queues.getD p.cur_input_index [] ++ [v]))
          cur_input_index :=
            (p.cur_input_index + 1) &&& (p.num_threads - 1) }, true) := rfl

/-- Computation rule for a failed `push`: nothing changes. -/
lemma push_false_eq (p : Parser I O) (v : I) : p.push v false = (p, false) := rfl

/-- Computation rule for `pop` on an empty current lane. -/
lemma pop_nil_eq (p : Parser I O) (out : O)
    (h : p.output_queues.getD p.cur_output_index [] = []) :
    p.pop out = (p, out, false) := by
  rw [List.getD_eq_getElem?_getD] at h
  simp [Parser.pop, h]

/-- Computation rule for `pop` on a non-empty current lane. -/
lemma pop_cons_eq (p : Parser I O) (out : O) (o : O) (rest : List O)
    (h : p.output_queues.getD p.cur_output_index [] = o :: rest) :
    p.pop out =
      ({ p with
          output_queues := p.output_queues.set p.cur_output_index rest
          cur_output_index :=
            (p.cur_output_index + 1) &&& (p.num_threads - 1) }, o, true) := by
  rw [List.getD_eq_getElem?_getD] at h
  simp [Parser.pop, h]

/-- C3: for every conversion function and every `init_capacity`,
construction fails with the `InvalidArgument` error if and only if the
lane count is zero or not a power of two; in particular `N = 3` and
`N = 0` are rejected while `N = 8` is accepted.  (In `Parser.make` the
rejection happens before any queue or thread storage is built.) -/
theorem construction_rejects_bad_lane_counts (f : I → O) (init_size : Nat) :
    (∀ N, Parser.make f N init_size = .error invalidArgMsg ↔
      (N = 0 ∨ ¬∃ m, N = 2 ^ m)) ∧
    Parser.make f 3 init_size = .error invalidArgMsg ∧
    Parser.make f 0 init_size = .error invalidArgMsg ∧
    Parser.make f 8 init_size = .ok (Parser.init f 8) := by
  refine ⟨fun N => make_error_iff f init_size N, ?_, ?_, ?_⟩
  · exact (make_error_iff f init_size 3).mpr
      (Or.inr (not_pow2_between (k := 1) (by norm_num) (by norm_num)))
  · exact (make_error_iff f init_size 0).mpr (Or.inl rfl)
  · have h := make_pow2_ok f init_size 3
    norm_num at h
    exact h

/-- C9: the single-argument constructor delegates to the three-argument
one with the platform's `hardware_concurrency` value and capacity 4096, so
it inherits the lane-count validation: any platform value that is zero or
not a power of two (such as 6 or 12) makes the default constructor throw
`InvalidArgument` even though the caller supplied no lane count. -/
theorem default_ctor_inherits_validation (f : I → O) :
    (∀ hc, Parser.makeDefault f hc = Parser.make f hc 4096) ∧
    (∀ hc, (hc = 0 ∨ ¬∃ m, hc = 2 ^ m) →
      Parser.makeDefault f hc = .error invalidArgMsg) ∧
    Parser.makeDefault f 6 = .error invalidArgMsg ∧
    Parser.makeDefault f 12 = .error invalidArgMsg ∧
    Parser.makeDefault f 0 = .error invalidArgMsg := by
  refine ⟨fun hc => rfl, fun hc h => (make_error_iff f 4096 hc).mpr h, ?_, ?_, ?_⟩
  · exact (make_error_iff f 4096 6).mpr
      (Or.inr (not_pow2_between (k := 2) (by norm_num) (by norm_num)))
  · exact (make_error_iff f 4096 12).mpr
      (Or.inr (not_pow2_between (k := 3) (by norm_num) (by norm_num)))
  · exact (make_error_iff f 4096 0).mpr (Or.inl rfl)

/-- Witness for C9 at the concrete platform value 6. -/
theorem default_ctor_inherits_validation_witness :
    Parser.makeDefault (fun n : Nat => n + 1) 6 = .error invalidArgMsg :=
  (default_ctor_inherits_validation (fun n : Nat => n + 1)).2.1 6
    (Or.inr (not_pow2_between (k := 2) (by norm_num) (by norm_num)))

/-- C4: `push` targets the input queue at the current submit index and
returns the enqueue outcome; on success exactly that queue gains the value
at its back and the submit index becomes `(i + 1) & (N - 1)`, which equals
`(i + 1) % N` because `N` is a power of two; on failure the whole state —
the submit index and every queue — is unchanged. -/
theorem push_round_robin (m : Nat) (p : Parser I O)
    (hN : p.num_threads = 2 ^ m) (v : I) :
    p.push v true =
      ({ p with
          input_queues :=
            (p.input_queues.set p.cur_input_index
              (p.input_queues.getD p.cur_input_index [] ++ [v]))
          cur_input_index := (p.cur_input_index + 1) % p.num_threads }, true) ∧
    (p.cur_input_index + 1) &&& (p.num_threads - 1)
      = (p.cur_input_index + 1) % p.num_threads ∧
    p.push v false = (p, false) := by
  have hand : (p.cur_input_index + 1) &&& (p.num_threads - 1)
      = (p.cur_input_index + 1) % p.num_threads := by
    rw [hN]; exact Nat.and_pow_two_sub_one_eq_mod _ m
  refine ⟨?_, hand, rfl⟩
  simp [Parser.push, hand]

/-- Witness for C4 on a concrete two-lane parser. -/
theorem push_round_robin_witness :
    (Parser.init (fun n : Nat => n + 1) 2).push 5 false
      = (Parser.init (fun n : Nat => n + 1) 2, false) :=
  (push_round_robin 1 (Parser.init (fun n : Nat => n + 1) 2) rfl 5).2.2

/-- C5: when the output queue at the current receive index is empty, `pop`
returns false and leaves the out-parameter, the receive index and all
queues unchanged; when it is non-empty, `pop` returns true, yields the
dequeued front value, removes it from that queue and advances the receive
index by one modulo `N`. -/
theorem pop_empty_or_front (m : Nat) (p : Parser I O)
    (hN : p.num_threads = 2 ^ m) (out : O) :
    (p.output_queues.getD p.cur_output_index [] = [] →
      p.pop out = (p, out, false)) ∧
    (∀ (o : O) (rest : List O),
      p.output_queues.getD p.cur_output_index [] = o :: rest →
      p.pop out =
        ({ p with
            output_queues := p.output_queues.set p.cur_output_index rest
            cur_output_index := (p.cur_output_index + 1) % p.num_threads },
          o, true)) := by
  have hand : (p.cur_output_index + 1) &&& (p.num_threads - 1)
      = (p.cur_output_index + 1) % p.num_threads := by
    rw [hN]; exact Nat.and_pow_two_sub_one_eq_mod _ m
  constructor
  · intro h
    rw [List.getD_eq_getElem?_getD] at h
    simp [Parser.pop, h]
  · intro o rest h
    rw [List.getD_eq_getElem?_getD] at h
    simp [Parser.pop, h, hand]

/-- Witness for C5: popping a freshly constructed (hence empty) two-lane
parser fails and changes nothing. -/
theorem pop_empty_or_front_witness :
    (Parser.init (fun n : Nat => n + 1) 2).pop 7
      = (Parser.init (fun n : Nat => n + 1) 2, 7, false) :=
  (pop_empty_or_front 1 (Parser.init (fun n : Nat => n + 1) 2) rfl 7).1 rfl

/-- C7: one iteration of the worker loop in which the internal output
enqueue fails: exactly one warning is written to the diagnostic stream,
the converted item is dropped (the output queue is unchanged, so the item
can never be popped later, and the input item is not requeued for a
retry), and the loop keeps running. -/
theorem worker_enqueue_failure_reported_not_recovered
    (f : I → O) (v : I) (rest : List I) (outq : List O) :
    thread_routine_body f true (v :: rest) outq false = (rest, outq, 1, true) := by
  simp [thread_routine_body]

/-- C8: a drain-mode worker (`thread_routine_wait`) on a lane with a fixed
finite input and no concurrent producer converts exactly the items
present, in order, appending them to its output queue, and returns at its
first observation of an empty input queue; after a drain every input lane
is empty. -/
theorem drain_worker_converts_exactly (f : I → O) :
    (∀ (inq : List I) (outq : List O),
      thread_routine_wait f inq outq = outq ++ inq.map f) ∧
    (∀ p : Parser I O,
      p.drain.input_queues = p.input_queues.map (fun _ => [])) := by
  constructor
  · intro inq
    induction inq with
    | nil => intro outq; simp [thread_routine_wait]
    | cons v rest ih =>
        intro outq
        simp [thread_routine_wait, ih]
  · intro p
    rfl

/-- The first stop of a started parser joins all threads successfully. -/
lemma joinAll_replicate_true (n : Nat) :
    joinAll (List.replicate n true) = .ok (List.replicate n false) := by
  induction n with
  | zero => rfl
  | succ k ih => simp [List.replicate_succ, joinAll, threadJoin, ih]

/-- Joining an already-joined nonempty thread set raises an error. -/
lemma joinAll_replicate_false (n : Nat) (hn : 0 < n) :
    joinAll (List.replicate n false)
      = .error "std::system_error: invalid argument: thread not joinable" := by
  cases n with
  | zero => omega
  | succ k => simp [List.replicate_succ, joinAll, threadJoin]

/-- C6 counterexample: on a started parser with one worker thread, a first
`stop` completes, but a second `stop` is not a no-op — it raises an error
(joining an already-joined `std::thread` throws `std::system_error`). -/
theorem stop_twice_counterexample :
    (startThreads 1).stop
        = .ok { threads_active := false, joinable := [false] } ∧
      Lifecycle.stop { threads_active := false, joinable := [false] }
        = .error "std::system_error: invalid argument: thread not joinable" := by
  constructor <;> rfl

/-- C6 amended: after a first completed `stop` of a started parser (with
its `N ≥ 1` worker threads), a second `stop` does not terminate normally:
it attempts to join the already-joined threads, which raises
`std::system_error`.  The active flag is already false after the first
stop (and the failing second stop does not set it back). -/
theorem stop_after_stop_raises (n : Nat) (hn : 0 < n) :
    ∃ s2 : Lifecycle, (startThreads n).stop = .ok s2 ∧
      s2.threads_active = false ∧ ∃ msg, s2.stop = .error msg := by
  refine ⟨{ threads_active := false, joinable := List.replicate n false },
    ?_, rfl, ?_⟩
  · simp [Lifecycle.stop, startThreads, joinAll_replicate_true]
  · refine ⟨"std::system_error: invalid argument: thread not joinable", ?_⟩
    simp [Lifecycle.stop, joinAll_replicate_false n hn]

/-- Witness for the amended C6 at one worker thread. -/
theorem stop_after_stop_raises_witness :
    ∃ s2 : Lifecycle, (startThreads 1).stop = .ok s2 ∧
      s2.threads_active = false ∧ ∃ msg, s2.stop = .error msg :=
  stop_after_stop_raises 1 (by decide)

/-- The pair-comparison loop of `operator==(ILF, ILF)` on equally long
lists is index-wise `KeyValue` equality. -/
lemma pairsEq_iff : ∀ (l1 l2 : List KeyValue), l1.length = l2.length →
    (pairsEq l1 l2 = true ↔
      ∀ (i : Nat) (h1 : i < l1.length) (h2 : i < l2.length),
        kvEq l1[i] l2[i] = true) := by
  intro l1
  induction l1 with
  | nil =>
      intro l2 h
      constructor
      · intro _ i h1 _
        exact absurd h1 (by simp)
      · intro _
        simp [pairsEq]
  | cons a t1 ih =>
      intro l2 h
      cases l2 with
      | nil => simp at h
      | cons b t2 =>
          have hlen : t1.length = t2.length := by simpa using h
          simp only [pairsEq, Bool.and_eq_true]
          constructor
          · rintro ⟨hab, hrest⟩ i h1 h2
            cases i with
            | zero => simpa using hab
            | succ j =>
                have := (ih t2 hlen).mp hrest j (by simpa using h1)
                  (by simpa using h2)
                simpa using this
          · intro hall
            refine ⟨by simpa using hall 0 (by simp) (by simp),
              (ih t2 hlen).mpr ?_⟩
            intro j h1 h2
            simpa using hall (j + 1) (by simpa using h1) (by simpa using h2)

/-- C10: `KeyValue` equality compares only key and value, ignoring
`_has_quotes`; `ILF` equality is equality of the four string fields plus
length equality and order-sensitive pairwise `KeyValue` equality of the
pair lists; hence two `ILF` values can compare equal while their
serialized texts differ in quoting. -/
theorem equality_ignores_quotes :
    (∀ kv1 kv2 : KeyValue, kvEq kv1 kv2 = true ↔
      kv1.key = kv2.key ∧ kv1.value = kv2.value) ∧
    (∀ ilf1 ilf2 : ILF, ilfEq ilf1 ilf2 = true ↔
      (ilf1.event_t = ilf2.event_t ∧ ilf1.sender = ilf2.sender ∧
       ilf1.receiver = ilf2.receiver ∧ ilf1.time = ilf2.time ∧
       ilf1.pairs.length = ilf2.pairs.length ∧
       ∀ (i : Nat) (h1 : i < ilf1.pairs.length) (h2 : i < ilf2.pairs.length),
         kvEq ilf1.pairs[i] ilf2.pairs[i] = true)) ∧
    (ilfEq ⟨"e", "s", "r", "t", [⟨"k", "v", true⟩]⟩
        ⟨"e", "s", "r", "t", [⟨"k", "v", false⟩]⟩ = true ∧
      ilfToString ⟨"e", "s", "r", "t", [⟨"k", "v", true⟩]⟩
        ≠ ilfToString ⟨"e", "s", "r", "t", [⟨"k", "v", false⟩]⟩) := by
  refine ⟨?_, ?_, ?_, ?_⟩
  · intro kv1 kv2
    simp [kvEq, Bool.and_eq_true]
  · intro ilf1 ilf2
    unfold ilfEq
    split_ifs with hfields hlen
    · simp only [Bool.and_eq_true, beq_iff_eq] at hfields
      simp only [beq_iff_eq] at hlen
      rw [pairsEq_iff _ _ hlen]
      obtain ⟨⟨⟨h1, h2⟩, h3⟩, h4⟩ := hfields
      simp [h1, h2, h3, h4, hlen]
    · simp only [beq_iff_eq] at hlen
      constructor
      · intro h
        simp at h
      · rintro ⟨_, _, _, _, hl, _⟩
        exact absurd hl hlen
    · constructor
      · intro h
        simp at h
      · rintro ⟨h1, h2, h3, h4, _⟩
        exact hfields (by simp [h1, h2, h3, h4])
  · decide
  · decide

/-- Replacing lane `i` changes the total size by the difference of the old
and new lane lengths. -/
lemma sum_map_length_set {γ : Type} (l : List (List γ)) (i : Nat)
    (x : List γ) (h : i < l.length) :
    ((l.set i x).map List.length).sum + (l.getD i []).length
      = (l.map List.length).sum + x.length := by
  induction l generalizing i with
  | nil => simp at h
  | cons a t ih =>
      cases i with
      | zero => simp [List.getD_cons_zero]; omega
      | succ n =>
          have hn : n < t.length := by simpa using h
          have := ih n hn
          simp only [List.set_cons_succ, List.map_cons, List.sum_cons,
            List.getD_cons_succ]
          omega

/-- Replacing slot `i` changes the in-flight count by the difference of
the old and new slot occupancies. -/
lemma countP_isSome_set (l : List (Option I)) (i : Nat) (x : Option I)
    (h : i < l.length) :
    (l.set i x).countP (fun o => o.isSome)
        + (if (l.getD i none).isSome then 1 else 0)
      = l.countP (fun o => o.isSome) + (if x.isSome then 1 else 0) := by
  induction l generalizing i with
  | nil => simp at h
  | cons a t ih =>
      cases i with
      | zero => simp [List.getD_cons_zero, List.countP_cons]; omega
      | succ n =>
          have hn : n < t.length := by simpa using h
          have := ih n hn
          simp only [List.set_cons_succ, List.countP_cons,
            List.getD_cons_succ]
          omega

/-- Every atomic event preserves the inductive invariant. -/
lemma trackedInv_step {m : Nat} {s s2 : Tracked I O}
    (hinv : TrackedInv m s) (hstep : Step s s2) : TrackedInv m s2 := by
  obtain ⟨hN, hIn, hOut, hHand, hInIdx, hOutIdx, hsum⟩ := hinv
  have hpos : 0 < 2 ^ m := Nat.two_pow_pos m
  cases hstep with
  | push_ok v =>
      have hidx : s.p.cur_input_index < s.p.input_queues.length := by omega
      have hs := sum_map_length_set s.p.input_queues s.p.cur_input_index
        (s.p.input_queues.getD s.p.cur_input_index [] ++ [v]) hidx
      rw [push_true_eq]
      refine ⟨hN, by simp [hIn], hOut, hHand, ?_, hOutIdx, ?_⟩
      · show (s.p.cur_input_index + 1) &&& (s.p.num_threads - 1) < 2 ^ m
        rw [hN, Nat.and_pow_two_sub_one_eq_mod]
        exact Nat.mod_lt _ hpos
      · simp only [List.length_append, List.length_cons, List.length_nil] at hs
        simp only [Parser.input_size, Parser.output_size, handCount] at hsum ⊢
        omega
  | push_fail v =>
      rw [push_false_eq]
      exact ⟨hN, hIn, hOut, hHand, hInIdx, hOutIdx, hsum⟩
  | pop_ok out o p2 hpop =>
      rcases hq : s.p.output_queues.getD s.p.cur_output_index []
        with _ | ⟨o2, rest⟩
      · rw [pop_nil_eq s.p out hq] at hpop
        simp at hpop
      · rw [pop_cons_eq s.p out o2 rest hq] at hpop
        injection hpop with h1 h2
        subst h1
        have hidx : s.p.cur_output_index < s.p.output_queues.length := by omega
        have hs := sum_map_length_set s.p.output_queues s.p.cur_output_index
          rest hidx
        rw [hq] at hs
        refine ⟨hN, hIn, by simp [hOut], hHand, hInIdx, ?_, ?_⟩
        · show (s.p.cur_output_index + 1) &&& (s.p.num_threads - 1) < 2 ^ m
          rw [hN, Nat.and_pow_two_sub_one_eq_mod]
          exact Nat.mod_lt _ hpos
        · simp only [List.length_cons] at hs
          simp only [Parser.input_size, Parser.output_size, handCount]
            at hsum ⊢
          omega
  | pop_fail out o p2 hpop =>
      rcases hq : s.p.output_queues.getD s.p.cur_output_index []
        with _ | ⟨o2, rest⟩
      · rw [pop_nil_eq s.p out hq] at hpop
        injection hpop with h1 h2
        subst h1
        exact ⟨hN, hIn, hOut, hHand, hInIdx, hOutIdx, hsum⟩
      · rw [pop_cons_eq s.p out o2 rest hq] at hpop
        injection hpop with h1 h2
        injection h2 with h2a h2b
        simp at h2b
  | worker_deq i v rest hact hi hhand hq =>
      have hidx : i < s.p.input_queues.length := by omega
      have hidx2 : i < s.hand.length := by omega
      have hs := sum_map_length_set s.p.input_queues i rest hidx
      have hc := countP_isSome_set s.hand i (some v) hidx2
      rw [hq] at hs
      rw [hhand] at hc
      refine ⟨hN, by simp [hIn], hOut, by simp [hHand], hInIdx, hOutIdx, ?_⟩
      simp only [List.length_cons] at hs
      simp only [Option.isSome_some, Option.isSome_none,
        Bool.false_eq_true, if_true, if_false, eq_self_iff_true] at hc
      simp only [Parser.input_size, Parser.output_size, handCount] at hsum ⊢
      omega
  | worker_enq_ok i v hi hhand =>
      have hidx : i < s.p.output_queues.length := by omega
      have hidx2 : i < s.hand.length := by omega
      have hs := sum_map_length_set s.p.output_queues i
        (s.p.output_queues.getD i [] ++ [s.p.conversion_function v]) hidx
      have hc := countP_isSome_set s.hand i none hidx2
      rw [hhand] at hc
      refine ⟨hN, hIn, by simp [hOut], by simp [hHand], hInIdx, hOutIdx, ?_⟩
      simp only [List.length_append, List.length_cons, List.length_nil] at hs
      simp only [Option.isSome_some, Option.isSome_none,
        Bool.false_eq_true, if_true, if_false, eq_self_iff_true] at hc
      simp only [Parser.input_size, Parser.output_size, handCount] at hsum ⊢
      omega
  | worker_enq_fail i v hi hhand =>
      have hidx2 : i < s.hand.length := by omega
      have hc := countP_isSome_set s.hand i none hidx2
      rw [hhand] at hc
      refine ⟨hN, hIn, hOut, by simp [hHand], hInIdx, hOutIdx, ?_⟩
      simp only [Option.isSome_some, Option.isSome_none,
        Bool.false_eq_true, if_true, if_false, eq_self_iff_true] at hc
      simp only [Parser.input_size, Parser.output_size, handCount] at hsum ⊢
      omega
  | start_step =>
      exact ⟨hN, hIn, hOut, hHand, hInIdx, hOutIdx, hsum⟩
  | stop_step =>
      exact ⟨hN, hIn, hOut, hHand, hInIdx, hOutIdx, hsum⟩
/-- The invariant holds in every reachable state. -/
lemma trackedInv_reachable {m : Nat} {f : I → O} {s : Tracked I O}
    (h : Reachable f m s) : TrackedInv m s := by
  unfold Reachable at h
  induction h with
  | refl =>
      refine ⟨rfl, by simp [Tracked.init, Parser.init],
        by simp [Tracked.init, Parser.init], by simp [Tracked.init],
        Nat.two_pow_pos m, Nat.two_pow_pos m, ?_⟩
      simp [Tracked.init, Parser.init, Parser.input_size, Parser.output_size,
        handCount, List.countP_eq_zero]
  | tail hsteps hstep ih => exact trackedInv_step ih hstep

/-- C2: in every reachable state — under any sequential interleaving of
pushes (with either allocation outcome), pops, worker dequeues, worker
enqueues (succeeding or failing), starts and stops — the items in the
input bank, plus those in the output bank, plus those held inside a
worker, plus those lost to a failed worker enqueue, account exactly for
the successful pushes minus the successful pops: nothing is duplicated or
created. -/
theorem conservation_of_items (m : Nat) (f : I → O) (s : Tracked I O)
    (h : Reachable f m s) :
    s.p.input_size + s.p.output_size + handCount s.hand + s.lost
      = s.pushed - s.popped := by
  obtain ⟨_, _, _, _, _, _, hsum⟩ := trackedInv_reachable h
  omega

/-- Witness for C2 at the freshly constructed single-lane parser. -/
theorem conservation_of_items_witness :
    (Tracked.init (fun n : Nat => n + 1) (2 ^ 0)).p.input_size
        + (Tracked.init (fun n : Nat => n + 1) (2 ^ 0)).p.output_size
        + handCount (Tracked.init (fun n : Nat => n + 1) (2 ^ 0)).hand
        + (Tracked.init (fun n : Nat => n + 1) (2 ^ 0)).lost
      = (Tracked.init (fun n : Nat => n + 1) (2 ^ 0)).pushed
        - (Tracked.init (fun n : Nat => n + 1) (2 ^ 0)).popped :=
  conservation_of_items 0 (fun n : Nat => n + 1) _ Relation.ReflTransGen.refl

/-! ### Round-robin FIFO preservation (C1) -/

lemma sel_nil (N j : Nat) : sel N j ([] : List α) = [] := rfl

lemma sel_cons_zero (N : Nat) (v : α) (vs : List α) :
    sel N 0 (v :: vs) = v :: sel N (N - 1) vs := by
  simp [sel]

lemma sel_cons_ne (N j : Nat) (hj : j ≠ 0) (v : α) (vs : List α) :
    sel N j (v :: vs) = sel N (j - 1) vs := by
  simp [sel, hj]

/-- Lane selection commutes with mapping the conversion function. -/
lemma sel_map (g : α → β) (N : Nat) : ∀ (j : Nat) (vs : List α),
    (sel N j vs).map g = sel N j (vs.map g) := by
  intro j vs
  induction vs generalizing j with
  | nil => simp [sel_nil]
  | cons v t ih =>
      by_cases hj : j = 0
      · subst hj
        simp only [List.map_cons, sel_cons_zero, List.map_cons, ih]
      · simp only [List.map_cons, sel_cons_ne N j hj, ih]

/-- Appending one element to the dealt stream appends it to exactly the
lane at the current submit position. -/
lemma sel_append_singleton (N : Nat) (hN : 0 < N) (v : α) :
    ∀ (vs : List α) (j : Nat), j < N →
      sel N j (vs ++ [v])
        = sel N j vs ++ (if j = vs.length % N then [v] else []) := by
  intro vs
  induction vs with
  | nil =>
      intro j hj
      by_cases hj0 : j = 0
      · subst hj0
        simp [sel_cons_zero, sel_nil]
      · simp [sel_cons_ne N j hj0, sel_nil, hj0]
  | cons w t ih =>
      intro j hj
      have hl : t.length % N < N := Nat.mod_lt _ hN
      by_cases hj0 : j = 0
      · subst hj0
        rw [List.cons_append, sel_cons_zero, sel_cons_zero,
          ih (N - 1) (by omega)]
        have key : (N - 1 = t.length % N) ↔ (0 = (w :: t).length % N) := by
          simp only [List.length_cons]
          rw [← Nat.mod_add_mod]
          constructor
          · intro h
            rw [← h]
            have h2 : N - 1 + 1 = N := by omega
            rw [h2, Nat.mod_self]
          · intro h
            by_cases hc : t.length % N + 1 = N
            · omega
            · rw [Nat.mod_eq_of_lt (by omega)] at h
              omega
        by_cases hcond : N - 1 = t.length % N
        · rw [if_pos hcond, if_pos (key.mp hcond)]
          simp
        · rw [if_neg hcond, if_neg (fun h => hcond (key.mpr h))]
          simp
      · rw [List.cons_append, sel_cons_ne N j hj0, sel_cons_ne N j hj0,
          ih (j - 1) (by omega)]
        have key : (j - 1 = t.length % N) ↔ (j = (w :: t).length % N) := by
          simp only [List.length_cons]
          rw [← Nat.mod_add_mod]
          constructor
          · intro h
            rw [Nat.mod_eq_of_lt (by omega)]
            omega
          · intro h
            by_cases hc : t.length % N + 1 = N
            · rw [hc, Nat.mod_self] at h
              omega
            · rw [Nat.mod_eq_of_lt (by omega)] at h
              omega
        by_cases hcond : j - 1 = t.length % N
        · rw [if_pos hcond, if_pos (key.mp hcond)]
        · rw [if_neg hcond, if_neg (fun h => hcond (key.mpr h))]

lemma bankOf_length (N : Nat) (ws : List α) : (bankOf N ws).length = N := by
  simp [bankOf]

lemma bankOf_getElem (N : Nat) (ws : List α) (j : Nat)
    (h : j < (bankOf N ws).length) : (bankOf N ws)[j] = sel N j ws := by
  simp [bankOf]

lemma bankOf_getD (N : Nat) (ws : List α) (j : Nat) (h : j < N) :
    (bankOf N ws).getD j [] = sel N j ws := by
  have h2 : j < (bankOf N ws).length := by rw [bankOf_length]; exact h
  rw [List.getD_eq_getElem?_getD, List.getElem?_eq_getElem h2]
  simp [bankOf]

lemma bankOf_nil (N : Nat) : bankOf N ([] : List α) = List.replicate N [] := by
  simp [bankOf, sel_nil]

/-- Dealing `w :: ws`: lane 0 gets `w` in front of what lands there from
`ws` shifted by one, and lane `j + 1` gets lane `j` of `ws`. -/
lemma bankOf_cons (N : Nat) (hN : 0 < N) (w : α) (ws : List α) :
    bankOf N (w :: ws)
      = (w :: sel N (N - 1) ws)
          :: (List.range (N - 1)).map (fun j => sel N j ws) := by
  obtain ⟨n, rfl⟩ : ∃ n, N = n + 1 := ⟨N - 1, by omega⟩
  simp only [bankOf, List.range_succ_eq_map, List.map_cons, List.map_map,
    Nat.add_sub_cancel, sel_cons_zero]
  have hmap : List.map ((fun j => sel (n + 1) j (w :: ws)) ∘ Nat.succ)
      (List.range n) = List.map (fun j => sel (n + 1) j ws) (List.range n) := by
    apply List.map_congr_left
    intro j hj
    simp only [Function.comp_apply]
    rw [sel_cons_ne (n + 1) (j + 1) (by omega), Nat.add_sub_cancel]
  rw [hmap]

lemma bankOf_append_last (N : Nat) (hN : 0 < N) (ws : List α) :
    bankOf N ws
      = (List.range (N - 1)).map (fun j => sel N j ws)
          ++ [sel N (N - 1) ws] := by
  obtain ⟨n, rfl⟩ : ∃ n, N = n + 1 := ⟨N - 1, by omega⟩
  have hr : List.range (n + 1) = List.range n ++ [n] := by
    simpa using List.range_succ (n := n)
  simp only [bankOf, Nat.add_sub_cancel, hr, List.map_append, List.map_cons,
    List.map_nil]

lemma rotL_zero (l : List α) : rotL l 0 = l := by
  simp [rotL]

/-- Pushing one more element onto the dealt bank at the current submit
position yields the bank of the extended stream. -/
lemma bankOf_set_push (N : Nat) (hN : 0 < N) (l : List α) (v : α) :
    (bankOf N l).set (l.length % N) (sel N (l.length % N) l ++ [v])
      = bankOf N (l ++ [v]) := by
  have hidx : l.length % N < N := Nat.mod_lt _ hN
  apply List.ext_getElem
  · simp [bankOf_length]
  · intro j h1 h2
    have hj : j < N := by
      rw [bankOf_length] at h2
      exact h2
    rw [List.getElem_set, bankOf_getElem N (l ++ [v]) j h2,
      sel_append_singleton N hN v l j hj]
    by_cases hcond : l.length % N = j
    · rw [if_pos hcond, if_pos hcond.symm, hcond]
    · rw [if_neg hcond, if_neg (fun h => hcond h.symm), List.append_nil]
      exact bankOf_getElem N l j (by rw [bankOf_length]; exact hj)

lemma midState_nil (f : I → O) (N : Nat) :
    midState f N [] = Parser.init f N := by
  unfold midState
  rw [bankOf_nil]
  simp [Parser.init]

/-- One successful push advances the mid-push state by one element. -/
lemma push_midState (f : I → O) (m : Nat) (l : List I) (v : I) :
    ((midState f (2 ^ m) l).push v true).1 = midState f (2 ^ m) (l ++ [v]) := by
  have hN : 0 < 2 ^ m := Nat.two_pow_pos m
  have hidx : l.length % 2 ^ m < 2 ^ m := Nat.mod_lt _ hN
  rw [push_true_eq]
  show ({ midState f (2 ^ m) l with
      input_queues :=
        ((bankOf (2 ^ m) l).set (l.length % 2 ^ m)
          ((bankOf (2 ^ m) l).getD (l.length % 2 ^ m) [] ++ [v]))
      cur_input_index := (l.length % 2 ^ m + 1) &&& (2 ^ m - 1) } : Parser I O)
    = midState f (2 ^ m) (l ++ [v])
  rw [bankOf_getD (2 ^ m) l _ hidx, bankOf_set_push (2 ^ m) hN l v]
  unfold midState
  simp only [Parser.init, List.length_append, List.length_cons,
    List.length_nil]
  rw [Nat.and_pow_two_sub_one_eq_mod, Nat.mod_add_mod]

lemma pushAll_cons (p : Parser I O) (v : I) (vs : List I) :
    p.pushAll (v :: vs) = ((p.push v true).1).pushAll vs := rfl

/-- Pushing a whole stream from a mid-push state deals it round-robin. -/
lemma pushAll_midState (f : I → O) (m : Nat) :
    ∀ (vs l : List I),
      (midState f (2 ^ m) l).pushAll vs = midState f (2 ^ m) (l ++ vs) := by
  intro vs
  induction vs with
  | nil =>
      intro l
      simp [Parser.pushAll]
  | cons v t ih =>
      intro l
      rw [pushAll_cons, push_midState, ih]
      simp

/-- The drain-mode worker loop appends the converted input to the output
queue, in input order. -/
lemma twr_spec (f : I → O) : ∀ (inq : List I) (outq : List O),
    thread_routine_wait f inq outq = outq ++ inq.map f := by
  intro inq
  induction inq with
  | nil => intro outq; simp [thread_routine_wait]
  | cons v rest ih =>
      intro outq
      simp [thread_routine_wait, ih]

/-- Draining the mid-push state empties the input bank and deals the
converted stream into the output bank. -/
lemma drain_midState (f : I → O) (m : Nat) (l : List I) :
    (midState f (2 ^ m) l).drain
      = { Parser.init f (2 ^ m) with
            cur_input_index := l.length % 2 ^ m
            output_queues := bankOf (2 ^ m) (l.map f) } := by
  have hzip : List.zipWith (fun iq oq => thread_routine_wait f iq oq)
      (bankOf (2 ^ m) l) (List.replicate (2 ^ m) ([] : List O))
      = bankOf (2 ^ m) (l.map f) := by
    apply List.ext_getElem
    · simp [bankOf_length]
    · intro j h1 h2
      have hj : j < 2 ^ m := by
        rw [bankOf_length] at h2
        exact h2
      have hj1 : j < (bankOf (2 ^ m) l).length := by
        rw [bankOf_length]
        exact hj
      have hj2 : j < (List.replicate (2 ^ m) ([] : List O)).length := by
        simp [hj]
      simp only [List.getElem_zipWith, List.getElem_replicate]
      rw [bankOf_getElem (2 ^ m) l j hj1, bankOf_getElem (2 ^ m) (l.map f) j h2,
        twr_spec, List.nil_append, sel_map]
  unfold Parser.drain midState
  simp only [Parser.init]
  rw [hzip]
  simp [List.map_const, bankOf_length]

/-- Popping `K` times from a state whose output bank, viewed from the
current receive position, holds the stream `todo` dealt round-robin,
returns exactly `todo`. -/
lemma popN_bankOf (m : Nat) :
    ∀ (todo : List O) (p : Parser I O) (done : Nat) (out : O),
      p.num_threads = 2 ^ m →
      p.output_queues.length = 2 ^ m →
      p.cur_output_index = done % 2 ^ m →
      rotL p.output_queues p.cur_output_index = bankOf (2 ^ m) todo →
      p.popN out todo.length = todo := by
  intro todo
  induction todo with
  | nil =>
      intro p done out h1 h2 h3 h4
      rfl
  | cons t rest ih =>
      intro p done out hN hlen hidx hrot
      have hpos : 0 < 2 ^ m := Nat.two_pow_pos m
      have hi : p.cur_output_index < 2 ^ m := by
        rw [hidx]
        exact Nat.mod_lt _ hpos
      have hi2 : p.cur_output_index < p.output_queues.length := by omega
      have e1 : rotL p.output_queues p.cur_output_index
          = p.output_queues[p.cur_output_index]
              :: (p.output_queues.drop (p.cur_output_index + 1)
                  ++ p.output_queues.take p.cur_output_index) := by
        unfold rotL
        rw [List.drop_eq_getElem_cons hi2, List.cons_append]
      rw [e1, bankOf_cons (2 ^ m) hpos t rest] at hrot
      have hhead : p.output_queues[p.cur_output_index]
          = t :: sel (2 ^ m) (2 ^ m - 1) rest := (List.cons.injEq .. ▸ hrot).1
      have htail : p.output_queues.drop (p.cur_output_index + 1)
            ++ p.output_queues.take p.cur_output_index
          = (List.range (2 ^ m - 1)).map (fun j => sel (2 ^ m) j rest) :=
        (List.cons.injEq .. ▸ hrot).2
      have hgetd : p.output_queues.getD p.cur_output_index []
          = t :: sel (2 ^ m) (2 ^ m - 1) rest := by
        rw [List.getD_eq_getElem?_getD, List.getElem?_eq_getElem hi2]
        simpa using hhead
      show Parser.popN p out (rest.length + 1) = t :: rest
      rw [Parser.popN, pop_cons_eq p out t _ hgetd]
      simp only [if_true]
      congr 1
      apply ih _ (done + 1) t
      · exact hN
      · simp [hlen]
      · show (p.cur_output_index + 1) &&& (p.num_threads - 1)
          = (done + 1) % 2 ^ m
        rw [hN, Nat.and_pow_two_sub_one_eq_mod, hidx, Nat.mod_add_mod]
      · show rotL
            (p.output_queues.set p.cur_output_index
              (sel (2 ^ m) (2 ^ m - 1) rest))
            ((p.cur_output_index + 1) &&& (p.num_threads - 1))
          = bankOf (2 ^ m) rest
        rw [hN, Nat.and_pow_two_sub_one_eq_mod]
        by_cases hwrap : p.cur_output_index + 1 = 2 ^ m
        · rw [hwrap, Nat.mod_self, rotL_zero]
          have hdropN : p.output_queues.drop (p.cur_output_index + 1) = [] := by
            have hEq : p.cur_output_index + 1 = p.output_queues.length := by
              omega
            rw [hEq, List.drop_length]
          have htake : p.output_queues.take p.cur_output_index
              = (List.range (2 ^ m - 1)).map (fun j => sel (2 ^ m) j rest) := by
            simpa [hdropN] using htail
          rw [List.set_eq_take_append_cons_drop, if_pos hi2, hdropN, htake,
            bankOf_append_last (2 ^ m) hpos rest]
        · have hlt : p.cur_output_index + 1 < 2 ^ m := by omega
          rw [Nat.mod_eq_of_lt hlt]
          unfold rotL
          rw [List.drop_set, if_pos (by omega)]
          have htake1 : (p.output_queues.set p.cur_output_index
                (sel (2 ^ m) (2 ^ m - 1) rest)).take (p.cur_output_index + 1)
              = p.output_queues.take p.cur_output_index
                  ++ [sel (2 ^ m) (2 ^ m - 1) rest] := by
            rw [List.set_take, ← List.take_concat_get _ _ hi2,
              List.concat_eq_append, List.set_append_right _ _
                (by simp [Nat.min_eq_left (Nat.le_of_lt hi2)])]
            congr 1
            have hlen2 : (p.output_queues.take p.cur_output_index).length
                = p.cur_output_index := by
              simp [Nat.min_eq_left (Nat.le_of_lt hi2)]
            rw [hlen2]
            simp
          rw [htake1, ← List.append_assoc, htail,
            bankOf_append_last (2 ^ m) hpos rest]

/-- C1: with `N = 2 ^ m` lanes, after `K` successful pushes of `v₁ … v_K`
by a single producer, a drain-mode worker run (`start_wait`, workers run
to completion), and `K` pops by a single consumer, the `k`-th successful
pop returns `f(vₖ)`: the popped sequence is exactly `map f` of the pushed
sequence.  The second conjunct records that the constructor accepts
`N = 2 ^ m` and yields exactly the initial state used here. -/
theorem fifo_order_preserved (m : Nat) (f : I → O) (vs : List I) (out : O) :
    (((Parser.init f (2 ^ m)).pushAll vs).drain).popN out vs.length
        = vs.map f ∧
    (∀ init_size, Parser.make f (2 ^ m) init_size
        = .ok (Parser.init f (2 ^ m))) := by
  constructor
  · have h0 : Parser.init f (2 ^ m) = midState f (2 ^ m) [] :=
      (midState_nil f (2 ^ m)).symm
    rw [h0, pushAll_midState, List.nil_append, drain_midState]
    have hK : vs.length = (vs.map f).length := by simp
    rw [hK]
    apply popN_bankOf m (vs.map f) _ 0 out
    · rfl
    · simp [bankOf_length]
    · rfl
    · show rotL (bankOf (2 ^ m) (vs.map f)) 0 = bankOf (2 ^ m) (vs.map f)
      exact rotL_zero _
  · intro init_size
    exact make_pow2_ok f init_size m

end LibIlf
